import Mathlib

/-!
Verification of the ESP32 MNIST capture firmware (`src/esp32/main_final.py` and
`src/esp32/mainESPold.py`) against its natural-language specification.

The 320x240 1-bit framebuffer (`self.buffer = bytearray(9600)`) is embedded as a
function from byte index to byte value; coordinates are integers, as in the
MicroPython source.  Every definition below is a direct translation of the
corresponding Python function, keeping the source's names.
-/

/-- Byte-indexed view of the MicroPython `bytearray(9600)` framebuffer. -/
def Buf : Type := Nat → Nat

/-- Fresh `bytearray(9600)`: every byte is zero (`reset_canvas` / initial state). -/
def clear_buffer : Buf := fun _ => 0

/-- Translation of `TouchScreen.set_pixel` (identical in `main_final.py` lines
150-154 and `mainESPold.py` lines 133-137):

    if 0 <= x < 320 and 0 <= y < 240:
        idx = y * 320 + x
        self.buffer[idx // 8] |= (state << (7 - (idx % 8)))

A Python `bool` shifted left is `1 << k` for `True` and `0` for `False`. -/
def set_pixel (buf : Buf) (x y : Int) (state : Bool) : Buf :=
  if 0 ≤ x ∧ x < 320 ∧ 0 ≤ y ∧ y < 240 then
    let idx : Nat := (y * 320 + x).toNat
    fun i => if i = idx / 8 then buf i ||| ((if state then 1 else 0) <<< (7 - idx % 8)) else buf i
  else buf

/-- Translation of `TouchScreen.get_pixel` (identical in both firmware files):

    if 0 <= x < 320 and 0 <= y < 240:
        idx = y * 320 + x
        return bool(self.buffer[idx // 8] & (1 << (7 - (idx % 8))))
    return False
-/
def get_pixel (buf : Buf) (x y : Int) : Bool :=
  if 0 ≤ x ∧ x < 320 ∧ 0 ≤ y ∧ y < 240 then
    let idx : Nat := (y * 320 + x).toNat
    decide (buf (idx / 8) &&& (1 <<< (7 - idx % 8)) ≠ 0)
  else false

/-- Setting a bit makes the masked byte nonzero. -/
theorem or_shift_and_shift_ne_zero (a k : Nat) : (a ||| 1 <<< k) &&& (1 <<< k) ≠ 0 := by
  rw [Nat.one_shiftLeft, Nat.and_two_pow, Nat.testBit_or, Nat.testBit_two_pow_self,
    Bool.or_true]
  simp

/-- ORing extra bits into a byte never clears an already-set masked bit. -/
theorem and_shift_mono (a v k : Nat) (h : a &&& 1 <<< k ≠ 0) :
    (a ||| v) &&& 1 <<< k ≠ 0 := by
  rw [Nat.one_shiftLeft, Nat.and_two_pow] at h ⊢
  rw [Nat.testBit_or]
  rcases hb : a.testBit k with _ | _
  · rw [hb] at h; simp at h
  · simp [hb]

/-- Setting a different bit position leaves the masked value of a byte unchanged. -/
theorem or_shift_and_shift_of_ne (a : Nat) {k j : Nat} (h : k ≠ j) :
    (a ||| 1 <<< k) &&& 1 <<< j = a &&& 1 <<< j := by
  rw [Nat.one_shiftLeft, Nat.one_shiftLeft, Nat.and_two_pow, Nat.and_two_pow,
    Nat.testBit_or, Nat.testBit_two_pow_of_ne h, Bool.or_false]

/-- Linear bit addressing `idx = y*320 + x` is injective on in-bounds coordinates. -/
theorem idx_inj {a b x y : Int}
    (ha : 0 ≤ a ∧ a < 320 ∧ 0 ≤ b ∧ b < 240)
    (hx : 0 ≤ x ∧ x < 320 ∧ 0 ≤ y ∧ y < 240)
    (h : (b * 320 + a).toNat = (y * 320 + x).toNat) : a = x ∧ b = y := by
  obtain ⟨ha1, ha2, ha3, ha4⟩ := ha
  obtain ⟨hx1, hx2, hx3, hx4⟩ := hx
  omega

/-- Writing `state = False` is a no-op on the framebuffer: `buf[i] |= 0`. -/
theorem set_pixel_false (buf : Buf) (x y : Int) : set_pixel buf x y false = buf := by
  unfold set_pixel
  split
  · funext i
    simp
  · rfl

/-- Reading back the pixel just set (in bounds) gives `True`. -/
theorem get_set_same (buf : Buf) (x y : Int)
    (h : 0 ≤ x ∧ x < 320 ∧ 0 ≤ y ∧ y < 240) :
    get_pixel (set_pixel buf x y true) x y = true := by
  unfold get_pixel set_pixel
  rw [if_pos h, if_pos h]
  simp only [if_true, if_pos rfl]
  simpa using or_shift_and_shift_ne_zero _ _

/-- Setting one pixel does not change the value read at any other coordinate. -/
theorem get_set_other (buf : Buf) {x y a b : Int} (s : Bool)
    (hne : ¬(a = x ∧ b = y)) :
    get_pixel (set_pixel buf x y s) a b = get_pixel buf a b := by
  by_cases hxy : 0 ≤ x ∧ x < 320 ∧ 0 ≤ y ∧ y < 240
  · by_cases hab : 0 ≤ a ∧ a < 320 ∧ 0 ≤ b ∧ b < 240
    · unfold get_pixel set_pixel
      rw [if_pos hxy, if_pos hab, if_pos hab]
      simp only
      by_cases hbyte : (b * 320 + a).toNat / 8 = (y * 320 + x).toNat / 8
      · rw [if_pos hbyte]
        have hidx : (b * 320 + a).toNat ≠ (y * 320 + x).toNat := by
          intro hEq
          exact hne (idx_inj hab hxy hEq)
        have hbit : 7 - (y * 320 + x).toNat % 8 ≠ 7 - (b * 320 + a).toNat % 8 := by
          omega
        rcases s with _ | _
        · simp
        · simp only [if_true]
          rw [or_shift_and_shift_of_ne _ hbit]
      · rw [if_neg hbyte]
    · unfold get_pixel
      rw [if_neg hab, if_neg hab]
  · unfold set_pixel
    rw [if_neg hxy]

/-- Once a pixel reads `True`, any further `set_pixel` keeps it `True`. -/
theorem get_set_mono (buf : Buf) (x y : Int) (s : Bool) (a b : Int)
    (h : get_pixel buf a b = true) :
    get_pixel (set_pixel buf x y s) a b = true := by
  by_cases hpt : a = x ∧ b = y
  · obtain ⟨rfl, rfl⟩ := hpt
    have hab : 0 ≤ a ∧ a < 320 ∧ 0 ≤ b ∧ b < 240 := by
      by_contra hc
      rw [get_pixel, if_neg hc] at h
      exact Bool.false_ne_true h
    rcases s with _ | _
    · rwa [set_pixel_false]
    · exact get_set_same buf a b hab
  · rwa [get_set_other buf s hpt]

/-- C4: for every in-bounds coordinate, `set_pixel(x,y,True)` followed by
`get_pixel(x,y)` returns `True`; the write lands in byte `(y*320+x)/8` at bit
position `7 - ((y*320+x) mod 8)` and touches no other byte; and after a canvas
reset (`bytearray(9600)`) every in-bounds `get_pixel` is `False`. -/
theorem set_get_roundtrip (buf : Buf) (x y : Int)
    (h : 0 ≤ x ∧ x < 320 ∧ 0 ≤ y ∧ y < 240) :
    get_pixel (set_pixel buf x y true) x y = true ∧
    set_pixel buf x y true ((y * 320 + x).toNat / 8) =
      buf ((y * 320 + x).toNat / 8) ||| 1 <<< (7 - (y * 320 + x).toNat % 8) ∧
    (∀ i, i ≠ (y * 320 + x).toNat / 8 → set_pixel buf x y true i = buf i) ∧
    get_pixel clear_buffer x y = false := by
  refine ⟨get_set_same buf x y h, ?_, ?_, ?_⟩
  · unfold set_pixel
    rw [if_pos h]
    simp
  · intro i hi
    unfold set_pixel
    rw [if_pos h]
    simp only [if_neg hi]
  · unfold get_pixel
    rw [if_pos h]
    simp [clear_buffer]

/-- Witness for C4 at the concrete in-bounds coordinate (3,5). -/
theorem set_get_roundtrip_witness :
    get_pixel (set_pixel clear_buffer 3 5 true) 3 5 = true ∧
    get_pixel clear_buffer 3 5 = false :=
  ⟨(set_get_roundtrip clear_buffer 3 5 (by decide)).1,
   (set_get_roundtrip clear_buffer 3 5 (by decide)).2.2.2⟩

/-- C5: for every coordinate outside `[0,320) x [0,240)` and every state,
`set_pixel` returns the framebuffer unchanged (no partial write) and
`get_pixel` returns `False`; both are total functions, so neither raises. -/
theorem out_of_bounds_accessors (buf : Buf) (x y : Int) (st : Bool)
    (h : ¬(0 ≤ x ∧ x < 320 ∧ 0 ≤ y ∧ y < 240)) :
    set_pixel buf x y st = buf ∧ get_pixel buf x y = false := by
  unfold set_pixel get_pixel
  rw [if_neg h, if_neg h]
  exact ⟨rfl, rfl⟩

/-- Witness for C5 at the concrete out-of-bounds coordinate (320, 0). -/
theorem out_of_bounds_accessors_witness :
    set_pixel clear_buffer 320 0 true = clear_buffer ∧
    get_pixel clear_buffer 320 0 = false :=
  out_of_bounds_accessors clear_buffer 320 0 true (by decide)

/-- C9: `set_pixel(x,y,False)` leaves the framebuffer bit-for-bit unchanged
(the code ORs `False << k = 0` into the byte), a set bit is never cleared by
any `set_pixel` call, and hence under an arbitrary sequence of `set_pixel`
calls the set of ink pixels only grows. -/
theorem set_pixel_monotone :
    (∀ (buf : Buf) (x y : Int), set_pixel buf x y false = buf) ∧
    (∀ (buf : Buf) (x y : Int) (st : Bool) (a b : Int),
      get_pixel buf a b = true → get_pixel (set_pixel buf x y st) a b = true) ∧
    (∀ (calls : List (Int × Int × Bool)) (buf : Buf) (a b : Int),
      get_pixel buf a b = true →
      get_pixel (calls.foldl (fun bf c => set_pixel bf c.1 c.2.1 c.2.2) buf) a b = true) := by
  refine ⟨set_pixel_false, get_set_mono, ?_⟩
  intro calls
  induction calls with
  | nil => intro buf a b h; exact h
  | cons c rest ih =>
    intro buf a b h
    exact ih (set_pixel buf c.1 c.2.1 c.2.2) a b (get_set_mono buf c.1 c.2.1 c.2.2 a b h)

/-- Witness for C9: a concrete `False` write is a no-op, and a concrete set bit
survives a later `set_pixel` call. -/
theorem set_pixel_monotone_witness :
    set_pixel clear_buffer 8 9 false = clear_buffer ∧
    get_pixel (set_pixel (set_pixel clear_buffer 3 5 true) 10 11 true) 3 5 = true :=
  ⟨set_pixel_monotone.1 clear_buffer 8 9,
   set_pixel_monotone.2.1 (set_pixel clear_buffer 3 5 true) 10 11 true 3 5 (by rfl)⟩

/-!
Bresenham line rasterization, `TouchScreen.draw_line` (identical loop in
`main_final.py` lines 129-148 and `mainESPold.py` lines 112-131):

    dx = abs(x - self.last_x)
    dy = abs(y - self.last_y)
    sx = 1 if x > self.last_x else -1
    sy = 1 if y > self.last_y else -1
    err = dx - dy
    while True:
        self.draw_point(self.last_x, self.last_y)
        if self.last_x == x and self.last_y == y:
            break
        e2 = 2 * err
        if e2 > -dy:
            err -= dy
            self.last_x += sx
        if e2 < dx:
            err += dx
            self.last_y += sy

The loop is embedded fuel-style; `draw_line_points` supplies enough fuel
(`dx + dy + 1` iterations always suffice, as proved below).
-/

/-- Sequence of points passed to `draw_point` by the `while True` loop, one per
iteration, starting from the current cursor `(cx, cy)`. -/
def bres_steps (fuel : Nat) (x y dx dy sx sy cx cy err : Int) : List (Int × Int) :=
  match fuel with
  | 0 => []
  | f + 1 =>
    (cx, cy) ::
      if cx = x ∧ cy = y then []
      else
        let e2 := 2 * err
        let err1 := if e2 > -dy then err - dy else err
        let cx1 := if e2 > -dy then cx + sx else cx
        let err2 := if e2 < dx then err1 + dx else err1
        let cy1 := if e2 < dx then cy + sy else cy
        bres_steps f x y dx dy sx sy cx1 cy1 err2

/-- Drawn lattice points of `draw_line` from cursor `(x0,y0)` to target `(x,y)`. -/
def draw_line_points (x0 y0 x y : Int) : List (Int × Int) :=
  let dx := |x - x0|
  let dy := |y - y0|
  let sx : Int := if x0 < x then 1 else -1
  let sy : Int := if y0 < y then 1 else -1
  bres_steps ((dx + dy).toNat + 1) x y dx dy sx sy x0 y0 (dx - dy)

/-- Two lattice points are 8-adjacent: both coordinates differ by at most one. -/
def adj8 (p q : Int × Int) : Prop :=
  (q.1 - p.1).natAbs ≤ 1 ∧ (q.2 - p.2).natAbs ≤ 1

/-- A step of size `1` or `-1` moves by at most one. -/
theorem pm_natAbs (s : Int) (h : s = 1 ∨ s = -1) : s.natAbs ≤ 1 := by
  rcases h with rfl | rfl <;> decide

/-- Invariant of the Bresenham loop.  After `i` x-steps and `j` y-steps the
cursor is at `(x - (dx-i)*sx, y - (dy-j)*sy)` and the error term equals
`dx - dy - i*dy + j*dx`; from any such state with enough fuel the loop emits a
nonempty 8-connected list that starts at the cursor and ends at the target. -/
theorem bres_go (x y dx dy sx sy : Int)
    (hdx : 0 ≤ dx) (hdy : 0 ≤ dy)
    (hsx : sx = 1 ∨ sx = -1) (hsy : sy = 1 ∨ sy = -1) :
    ∀ (f : Nat) (i j cx cy err : Int),
      0 ≤ i → i ≤ dx → 0 ≤ j → j ≤ dy →
      (dx - i + (dy - j)).toNat < f →
      cx = x - (dx - i) * sx →
      cy = y - (dy - j) * sy →
      err = dx - dy - i * dy + j * dx →
      (bres_steps f x y dx dy sx sy cx cy err).head? = some (cx, cy) ∧
      (bres_steps f x y dx dy sx sy cx cy err).getLast? = some (x, y) ∧
      List.Chain' adj8 (bres_steps f x y dx dy sx sy cx cy err) := by
  intro f
  induction f with
  | zero =>
    intro i j cx cy err h0i hidx h0j hjdy hf hcx hcy herr
    omega
  | succ f ih =>
    intro i j cx cy err h0i hidx h0j hjdy hf hcx hcy herr
    by_cases hbrk : cx = x ∧ cy = y
    · simp only [bres_steps, if_pos hbrk]
      exact ⟨rfl, by simp [hbrk.1, hbrk.2], List.chain'_singleton _⟩
    · have hne : i < dx ∨ j < dy := by
        rcases lt_or_eq_of_le hidx with h | h
        · exact Or.inl h
        rcases lt_or_eq_of_le hjdy with h2 | h2
        · exact Or.inr h2
        exfalso
        apply hbrk
        constructor
        · rw [hcx]
          have hz : dx - i = 0 := by omega
          rw [hz]; ring
        · rw [hcy]
          have hz : dy - j = 0 := by omega
          rw [hz]; ring
      have haux1 : i = dx → j < dy → ¬(2 * err > -dy) := by
        intro h1 h2 hlt
        rw [herr, h1] at hlt
        nlinarith [mul_nonneg (show (0:ℤ) ≤ dy - 1 - j by omega) hdx]
      have haux2 : j = dy → i < dx → ¬(2 * err < dx) := by
        intro h1 h2 hlt
        rw [herr, h1] at hlt
        nlinarith [mul_nonneg (show (0:ℤ) ≤ dx - 1 - i by omega) hdy]
      by_cases hc1 : 2 * err > -dy
      · have hix : i < dx := by
          rcases lt_or_eq_of_le hidx with h | h
          · exact h
          · exfalso
            have hjd : j < dy := by
              rcases hne with h' | h'
              · omega
              · exact h'
            exact haux1 h hjd hc1
        by_cases hc2 : 2 * err < dx
        · -- both coordinates step
          have hjy : j < dy := by
            rcases lt_or_eq_of_le hjdy with h | h
            · exact h
            · exact absurd hc2 (haux2 h hix)
          obtain ⟨ihh, ihl, ihc⟩ := ih (i + 1) (j + 1) (cx + sx) (cy + sy) (err - dy + dx)
            (by omega) (by omega) (by omega) (by omega) (by omega)
            (by rw [hcx]; ring) (by rw [hcy]; ring) (by rw [herr]; ring)
          simp only [bres_steps, if_neg hbrk, if_pos hc1, if_pos hc2]
          refine ⟨rfl, ?_, ?_⟩
          · obtain ⟨r, rs, hrest⟩ :
                ∃ r rs, bres_steps f x y dx dy sx sy (cx + sx) (cy + sy) (err - dy + dx) = r :: rs := by
              cases hb : bres_steps f x y dx dy sx sy (cx + sx) (cy + sy) (err - dy + dx) with
              | nil => rw [hb] at ihh; exact absurd ihh (by simp)
              | cons r rs => exact ⟨r, rs, rfl⟩
            rw [hrest, List.getLast?_cons_cons]
            rw [hrest] at ihl
            exact ihl
          · refine List.chain'_cons'.mpr ⟨?_, ihc⟩
            intro p hp
            rw [ihh, Option.mem_some_iff] at hp
            subst hp
            exact ⟨by simpa using pm_natAbs sx hsx, by simpa using pm_natAbs sy hsy⟩
        · -- only the x coordinate steps
          obtain ⟨ihh, ihl, ihc⟩ := ih (i + 1) j (cx + sx) cy (err - dy)
            (by omega) (by omega) (by omega) (by omega) (by omega)
            (by rw [hcx]; ring) hcy (by rw [herr]; ring)
          simp only [bres_steps, if_neg hbrk, if_pos hc1, if_neg hc2]
          refine ⟨rfl, ?_, ?_⟩
          · obtain ⟨r, rs, hrest⟩ :
                ∃ r rs, bres_steps f x y dx dy sx sy (cx + sx) cy (err - dy) = r :: rs := by
              cases hb : bres_steps f x y dx dy sx sy (cx + sx) cy (err - dy) with
              | nil => rw [hb] at ihh; exact absurd ihh (by simp)
              | cons r rs => exact ⟨r, rs, rfl⟩
            rw [hrest, List.getLast?_cons_cons]
            rw [hrest] at ihl
            exact ihl
          · refine List.chain'_cons'.mpr ⟨?_, ihc⟩
            intro p hp
            rw [ihh, Option.mem_some_iff] at hp
            subst hp
            exact ⟨by simpa using pm_natAbs sx hsx, by simp⟩
      · by_cases hc2 : 2 * err < dx
        · -- only the y coordinate steps
          have hjy : j < dy := by
            rcases lt_or_eq_of_le hjdy with h | h
            · exact h
            · exfalso
              have hid : i < dx := by
                rcases hne with h' | h'
                · exact h'
                · omega
              exact haux2 h hid hc2
          obtain ⟨ihh, ihl, ihc⟩ := ih i (j + 1) cx (cy + sy) (err + dx)
            (by omega) (by omega) (by omega) (by omega) (by omega)
            hcx (by rw [hcy]; ring) (by rw [herr]; ring)
          simp only [bres_steps, if_neg hbrk, if_neg hc1, if_pos hc2]
          refine ⟨rfl, ?_, ?_⟩
          · obtain ⟨r, rs, hrest⟩ :
                ∃ r rs, bres_steps f x y dx dy sx sy cx (cy + sy) (err + dx) = r :: rs := by
              cases hb : bres_steps f x y dx dy sx sy cx (cy + sy) (err + dx) with
              | nil => rw [hb] at ihh; exact absurd ihh (by simp)
              | cons r rs => exact ⟨r, rs, rfl⟩
            rw [hrest, List.getLast?_cons_cons]
            rw [hrest] at ihl
            exact ihl
          · refine List.chain'_cons'.mpr ⟨?_, ihc⟩
            intro p hp
            rw [ihh, Option.mem_some_iff] at hp
            subst hp
            exact ⟨by simp, by simpa using pm_natAbs sy hsy⟩
        · -- neither condition fires: only possible when already at the target
          exfalso
          have h1 : 2 * err ≤ -dy := not_lt.mp hc1
          have h2 : dx ≤ 2 * err := not_lt.mp hc2
          have hdx0 : dx = 0 := by linarith
          have hdy0 : dy = 0 := by linarith
          apply hbrk
          constructor
          · rw [hcx]
            have hz : dx - i = 0 := by omega
            rw [hz]; ring
          · rw [hcy]
            have hz : dy - j = 0 := by omega
            rw [hz]; ring

/-- C7: for every pair of integer endpoints, the `draw_line` loop visits both
endpoints — the first drawn point is the old cursor and the last drawn point is
the new endpoint (which becomes the cursor) — and consecutive drawn points
differ by at most 1 in each coordinate (8-connected, no skipped pixels). -/
theorem draw_line_endpoints_connected (x0 y0 x y : Int) :
    (draw_line_points x0 y0 x y).head? = some (x0, y0) ∧
    (draw_line_points x0 y0 x y).getLast? = some (x, y) ∧
    List.Chain' adj8 (draw_line_points x0 y0 x y) := by
  have hdx : 0 ≤ |x - x0| := abs_nonneg _
  have hdy : 0 ≤ |y - y0| := abs_nonneg _
  have hsx : (if x0 < x then (1:ℤ) else -1) = 1 ∨ (if x0 < x then (1:ℤ) else -1) = -1 := by
    split
    · exact Or.inl rfl
    · exact Or.inr rfl
  have hsy : (if y0 < y then (1:ℤ) else -1) = 1 ∨ (if y0 < y then (1:ℤ) else -1) = -1 := by
    split
    · exact Or.inl rfl
    · exact Or.inr rfl
  have hcx : x0 = x - (|x - x0| - 0) * (if x0 < x then (1:ℤ) else -1) := by
    by_cases h : x0 < x
    · rw [if_pos h, abs_of_nonneg (show (0:ℤ) ≤ x - x0 by omega)]; ring
    · rw [if_neg h, abs_of_nonpos (show x - x0 ≤ (0:ℤ) by omega)]; ring
  have hcy : y0 = y - (|y - y0| - 0) * (if y0 < y then (1:ℤ) else -1) := by
    by_cases h : y0 < y
    · rw [if_pos h, abs_of_nonneg (show (0:ℤ) ≤ y - y0 by omega)]; ring
    · rw [if_neg h, abs_of_nonpos (show y - y0 ≤ (0:ℤ) by omega)]; ring
  have hmain := bres_go x y (|x - x0|) (|y - y0|)
    (if x0 < x then 1 else -1) (if y0 < y then 1 else -1) hdx hdy hsx hsy
    ((|x - x0| + |y - y0|).toNat + 1) 0 0 x0 y0 (|x - x0| - |y - y0|)
    le_rfl hdx le_rfl hdy (by omega) hcx hcy (by ring)
  simpa only [draw_line_points] using hmain

/-!
Bounding-box scan of `process_mnist_data` (identical in `mainESPold.py` lines
197-205 and `main_final.py` lines 192-199):

    min_x = max_x = min_y = max_y = None
    for y in range(240):
        for x in range(320):
            if self.get_pixel(x, y):
                min_x = min(x, min_x) if min_x else x
                max_x = max(x, max_x) if max_x else x
                min_y = min(y, min_y) if min_y else y
                max_y = max(y, max_y) if max_y else y

Python conditional truthiness: `if min_x` is false both for `None` and for the
integer `0`, which the model captures exactly.
-/

/-- Running bound variables of the scan: `None` or an integer. -/
structure Bounds where
  min_x : Option Int
  max_x : Option Int
  min_y : Option Int
  max_y : Option Int

/-- Python truthiness test used by `if not min_x` / `... if min_x else ...`:
`None` and `0` are falsy, every other integer is truthy. -/
def pyFalsy : Option Int → Bool
  | none => true
  | some v => v == 0

/-- Translation of `min(x, min_x) if min_x else x`. -/
def updMin (cur : Option Int) (x : Int) : Option Int :=
  match cur with
  | none => some x
  | some v => if v = 0 then some x else some (min x v)

/-- Translation of `max(x, max_x) if max_x else x`. -/
def updMax (cur : Option Int) (x : Int) : Option Int :=
  match cur with
  | none => some x
  | some v => if v = 0 then some x else some (max x v)

/-- Update of all four running bounds at a set pixel `(x, y)`. -/
def scanUpd (b : Bounds) (x y : Int) : Bounds :=
  ⟨updMin b.min_x x, updMax b.max_x x, updMin b.min_y y, updMax b.max_y y⟩

/-- Inner loop of the scan: one row `y`, `x` from 0 to 319. -/
def scanRow (buf : Buf) (y : Nat) (b : Bounds) : Bounds :=
  (List.range 320).foldl
    (fun b2 (k : Nat) =>
      if get_pixel buf (k : Int) (y : Int) then scanUpd b2 (k : Int) (y : Int) else b2) b

/-- Whole-framebuffer bounding-box scan, rows 0 to 239. -/
def scanBounds (buf : Buf) : Bounds :=
  (List.range 240).foldl (fun b k => scanRow buf k b) ⟨none, none, none, none⟩

/-- A fold whose step fixes every accumulator is the identity. -/
theorem foldl_fix {α : Type} (g : α → Nat → α) :
    ∀ (l : List Nat) (a : α), (∀ k ∈ l, ∀ b, g b k = b) → l.foldl g a = a := by
  intro l
  induction l with
  | nil => intro a _; rfl
  | cons k t ih =>
    intro a h
    rw [List.foldl_cons, h k (List.mem_cons_self k t) a]
    exact ih a fun k' hk' b => h k' (List.mem_cons_of_mem _ hk') b

/-- A row containing no set pixel leaves the running bounds unchanged. -/
theorem scanRow_noop (buf : Buf) (y : Nat) (b : Bounds)
    (h : ∀ k : Nat, k < 320 → get_pixel buf (k : Int) (y : Int) = false) :
    scanRow buf y b = b := by
  unfold scanRow
  apply foldl_fix
  intro k hk b2
  rw [h k (List.mem_range.mp hk)]
  simp

/-- A row whose only set pixel is at column `m` performs exactly one update. -/
theorem scanRow_single (buf : Buf) (y : Nat) (b : Bounds) (m : Nat) (hm : m < 320)
    (h : ∀ k : Nat, k < 320 → (get_pixel buf (k : Int) (y : Int) = true ↔ k = m)) :
    scanRow buf y b = scanUpd b (m : Int) (y : Int) := by
  have hfalse : ∀ k : Nat, k < 320 → k ≠ m → get_pixel buf (k : Int) (y : Int) = false := by
    intro k hk hne
    rcases hget : get_pixel buf (k : Int) (y : Int) with _ | _
    · rfl
    · exact absurd ((h k hk).mp hget) hne
  unfold scanRow
  rw [List.range_eq_range']
  have hsplit : List.range' 0 320 = List.range' 0 m ++ List.range' (0 + m) (320 - m) := by
    rw [List.range'_append_1]
    congr 1
    omega
  rw [hsplit, List.foldl_append]
  rw [foldl_fix _ _ b ?hpre]
  case hpre =>
    intro k hk b2
    obtain ⟨i, hi, rfl⟩ := List.mem_range'.mp hk
    rw [hfalse (0 + 1 * i) (by omega) (by omega)]
    simp
  have htail : List.range' (0 + m) (320 - m) = m :: List.range' (m + 1) (320 - m - 1) := by
    have h1 : 0 + m = m := by omega
    have h2 : 320 - m = 320 - m - 1 + 1 := by omega
    rw [h1]
    conv_lhs => rw [h2]
    rw [List.range'_succ]
  rw [htail, List.foldl_cons, (h m hm).mpr rfl]
  simp only [if_true]
  apply foldl_fix
  intro k hk b2
  obtain ⟨i, hi, rfl⟩ := List.mem_range'.mp hk
  rw [hfalse (m + 1 + 1 * i) (by omega) (by omega)]
  simp

/-- Every pixel of a fresh framebuffer reads `False`. -/
theorem get_clear (x y : Int) : get_pixel clear_buffer x y = false := by
  unfold get_pixel
  split
  · simp [clear_buffer]
  · rfl

/-- Framebuffer with exactly the single pixel (0,0) set. -/
def buf1 : Buf := set_pixel clear_buffer 0 0 true

/-- Framebuffer with exactly the pixels (0,5) and (7,6) set. -/
def buf2 : Buf := set_pixel (set_pixel clear_buffer 0 5 true) 7 6 true

/-- The only `True` pixel of `buf1` is (0,0). -/
theorem buf1_char (a b : Int) : get_pixel buf1 a b = true ↔ a = 0 ∧ b = 0 := by
  unfold buf1
  constructor
  · intro h
    by_contra hc
    rw [get_set_other clear_buffer true hc, get_clear] at h
    exact Bool.false_ne_true h
  · rintro ⟨rfl, rfl⟩
    exact get_set_same clear_buffer 0 0 (by decide)

/-- The only `True` pixels of `buf2` are (0,5) and (7,6). -/
theorem buf2_char (a b : Int) :
    get_pixel buf2 a b = true ↔ (a = 0 ∧ b = 5) ∨ (a = 7 ∧ b = 6) := by
  unfold buf2
  by_cases h76 : a = 7 ∧ b = 6
  · obtain ⟨rfl, rfl⟩ := h76
    constructor
    · intro _; exact Or.inr ⟨rfl, rfl⟩
    · intro _; exact get_set_same _ 7 6 (by decide)
  · rw [get_set_other _ true h76]
    by_cases h05 : a = 0 ∧ b = 5
    · obtain ⟨rfl, rfl⟩ := h05
      constructor
      · intro _; exact Or.inl ⟨rfl, rfl⟩
      · intro _; exact get_set_same clear_buffer 0 5 (by decide)
    · rw [get_set_other clear_buffer true h05, get_clear]
      constructor
      · intro h; exact absurd h Bool.false_ne_true
      · intro h
        rcases h with h | h
        · exact absurd h h05
        · exact absurd h h76

/-- Evaluation of the scan on `buf1`: the single set pixel (0,0) leaves every
running bound at `some 0` — all four are Python-falsy. -/
theorem scanBounds_buf1 : scanBounds buf1 = ⟨some 0, some 0, some 0, some 0⟩ := by
  unfold scanBounds
  rw [List.range_eq_range']
  have hsplit : List.range' 0 240 = List.range' 0 1 ++ List.range' (0 + 1) 239 := by
    rw [List.range'_append_1]
  have h0 : ∀ k : Nat, k < 320 → (get_pixel buf1 (k : Int) ((0 : Nat) : Int) = true ↔ k = 0) := by
    intro k _
    rw [buf1_char]
    constructor
    · rintro ⟨h1, _⟩; exact_mod_cast h1
    · rintro rfl; exact ⟨rfl, rfl⟩
  have hrest : ∀ k ∈ List.range' (0 + 1) 239, ∀ b, scanRow buf1 k b = b := by
    intro k hk b
    obtain ⟨i, _, rfl⟩ := List.mem_range'.mp hk
    apply scanRow_noop
    intro x _
    rcases hget : get_pixel buf1 (x : Int) ((0 + 1 + 1 * i : Nat) : Int) with _ | _
    · rfl
    · exfalso
      obtain ⟨_, h2⟩ := (buf1_char _ _).mp hget
      have : (0 + 1 + 1 * i : Nat) = 0 := by exact_mod_cast h2
      omega
  rw [hsplit, List.foldl_append]
  have h01 : List.range' 0 1 = [0] := rfl
  rw [h01, List.foldl_cons, List.foldl_nil,
    scanRow_single buf1 0 ⟨none, none, none, none⟩ 0 (by norm_num) h0,
    foldl_fix _ _ _ hrest]
  rfl

/-- Evaluation of the scan on `buf2` (pixels (0,5) and (7,6)).  At (0,5) the
running `min_x` becomes `some 0`; at (7,6) the update `min(x, min_x) if min_x
else x` sees the falsy value `0` and resets `min_x` to 7, losing the true
minimum column 0. -/
theorem scanBounds_buf2 : scanBounds buf2 = ⟨some 7, some 7, some 5, some 6⟩ := by
  unfold scanBounds
  rw [List.range_eq_range']
  have hsplit : List.range' 0 240 = List.range' 0 5 ++ List.range' 5 235 := by
    have h := List.range'_append_1 0 5 235
    norm_num at h
    exact h.symm
  have e1 : List.range' 5 235 = 5 :: List.range' 6 234 := by
    rw [show (235 : Nat) = 234 + 1 from rfl, List.range'_succ]
  have e2 : List.range' 6 234 = 6 :: List.range' 7 233 := by
    rw [show (234 : Nat) = 233 + 1 from rfl, List.range'_succ]
  have hpre : ∀ k ∈ List.range' 0 5, ∀ b, scanRow buf2 k b = b := by
    intro k hk b
    obtain ⟨i, hi, rfl⟩ := List.mem_range'.mp hk
    apply scanRow_noop
    intro x _
    rcases hget : get_pixel buf2 (x : Int) ((0 + 1 * i : Nat) : Int) with _ | _
    · rfl
    · exfalso
      rcases (buf2_char _ _).mp hget with ⟨_, h2⟩ | ⟨_, h2⟩
      · have : (0 + 1 * i : Nat) = 5 := by exact_mod_cast h2
        omega
      · have : (0 + 1 * i : Nat) = 6 := by exact_mod_cast h2
        omega
  have hrow5 : ∀ k : Nat, k < 320 → (get_pixel buf2 (k : Int) ((5 : Nat) : Int) = true ↔ k = 0) := by
    intro k _
    rw [buf2_char]
    constructor
    · rintro (⟨h1, _⟩ | ⟨_, h2⟩)
      · exact_mod_cast h1
      · exfalso
        have : (5 : Nat) = 6 := by exact_mod_cast h2
        omega
    · rintro rfl
      exact Or.inl ⟨by norm_num, by norm_num⟩
  have hrow6 : ∀ k : Nat, k < 320 → (get_pixel buf2 (k : Int) ((6 : Nat) : Int) = true ↔ k = 7) := by
    intro k _
    rw [buf2_char]
    constructor
    · rintro (⟨_, h2⟩ | ⟨h1, _⟩)
      · exfalso
        have : (6 : Nat) = 5 := by exact_mod_cast h2
        omega
      · exact_mod_cast h1
    · rintro rfl
      exact Or.inr ⟨by norm_num, by norm_num⟩
  have hrest : ∀ k ∈ List.range' 7 233, ∀ b, scanRow buf2 k b = b := by
    intro k hk b
    obtain ⟨i, hi, rfl⟩ := List.mem_range'.mp hk
    apply scanRow_noop
    intro x _
    rcases hget : get_pixel buf2 (x : Int) ((7 + 1 * i : Nat) : Int) with _ | _
    · rfl
    · exfalso
      rcases (buf2_char _ _).mp hget with ⟨_, h2⟩ | ⟨_, h2⟩
      · have : (7 + 1 * i : Nat) = 5 := by exact_mod_cast h2
        omega
      · have : (7 + 1 * i : Nat) = 6 := by exact_mod_cast h2
        omega
  rw [hsplit, List.foldl_append, foldl_fix _ _ _ hpre, e1, List.foldl_cons,
    scanRow_single buf2 5 ⟨none, none, none, none⟩ 0 (by norm_num) hrow5, e2, List.foldl_cons,
    scanRow_single buf2 6 _ 7 (by norm_num) hrow6,
    foldl_fix _ _ _ hrest]
  rfl

/-!
Extraction and transmission pipeline.
-/

/-- Bytes handed to the single `uart.write` call by `send_uart_data` of
`main_final.py` (lines 213-222):

    data_bytes = bytearray(b'\x00')
    data_bytes += bytearray(mnist_data)
    uart.write(data_bytes)
-/
def send_uart_data_final (mnist_data : List Nat) : List Nat := 0 :: mnist_data

/-- Bytes handed to the single `uart.write` call by `send_uart_data` of
`mainESPold.py` (lines 217-247): `data_bytes = mnist_data` — the payload is
written as-is, with no padding byte. -/
def send_uart_data_old (mnist_data : List Nat) : List Nat := mnist_data

/-- Translation of `extract_mnist_region` (`main_final.py` lines 172-185): the
fixed 28x28 window starting at `(d_x, d_y) = (140, 100)` is packed row-major,
MSB-first into 98 bytes.  The Python loops run `y in range(d_y, d_y+28)` and
`x in range(d_x, d_x+28)`; here they are indexed by the offsets `dy`, `dx` with
the same iteration order and a running `bit_index`. -/
def extract_mnist_region (buf : Buf) : List Nat :=
  let packed :=
    (List.range 28).foldl (fun (acc : (Nat → Nat) × Nat) (dy : Nat) =>
      (List.range 28).foldl (fun (acc2 : (Nat → Nat) × Nat) (dx : Nat) =>
        (if get_pixel buf (140 + (dx : Int)) (100 + (dy : Int)) then
           fun i => if i = acc2.2 / 8 then acc2.1 i ||| 1 <<< (7 - acc2.2 % 8) else acc2.1 i
         else acc2.1,
         acc2.2 + 1)) acc) (((fun _ => 0) : Nat → Nat), 0)
  (List.range 98).map packed.1

/-- Python `int()` applied to a real value: truncation toward zero.  The Python
source computes `scale_x = src_width / dst_width` in floating point; the model
uses exact rationals, which agree with the float computation on all inputs the
firmware produces. -/
def pyTrunc (q : ℚ) : Int := if 0 ≤ q then ⌊q⌋ else ⌈q⌉

/-- Translation of `scale_and_convert_to_bytearray` (`mainESPold.py` lines
156-190), nearest-neighbor resampling of the expanded bounding box onto a
28x28 grid, packed MSB-first into 98 bytes.  The file write to `tmp.txt` is a
logging side effect with no bearing on the returned bytes and is not modeled. -/
def scale_and_convert (buf : Buf) (x_start y_start src_width src_height : Int) : List Nat :=
  let scale_x : ℚ := (src_width : ℚ) / 28
  let scale_y : ℚ := (src_height : ℚ) / 28
  let packed :=
    (List.range 28).foldl (fun (acc : (Nat → Nat) × Nat) (yy : Nat) =>
      (List.range 28).foldl (fun (acc2 : (Nat → Nat) × Nat) (xx : Nat) =>
        let src_x : Int := pyTrunc ((x_start : ℚ) + (xx : ℚ) * scale_x)
        let src_y : Int := pyTrunc ((y_start : ℚ) + (yy : ℚ) * scale_y)
        let pixel : Bool :=
          if 0 ≤ src_x ∧ src_x < 320 ∧ 0 ≤ src_y ∧ src_y < 240 then get_pixel buf src_x src_y
          else false
        (if pixel then
           fun i => if i = acc2.2 / 8 then acc2.1 i ||| 1 <<< (7 - acc2.2 % 8) else acc2.1 i
         else acc2.1,
         acc2.2 + 1)) acc) (((fun _ => 0) : Nat → Nat), 0)
  (List.range 98).map packed.1

/-- Translation of `process_mnist_data` in `mainESPold.py` (lines 194-215): scan
the bounds, abort via `if not min_x` (Python truthiness!), else resample the
box expanded by 5 pixels each side and hand the result to `send_uart_data`.
Returns the bytes written to the UART, or `none` when the save aborts with
"No drawing found".  `Option.getD 0` extracts the integer that Python holds
whenever the guard passes (the guard guarantees `min_x` is a nonzero int, and
the other three are then also set). -/
def process_mnist_data_old (buf : Buf) : Option (List Nat) :=
  if pyFalsy (scanBounds buf).min_x then none
  else
    some (send_uart_data_old (scale_and_convert buf
      ((scanBounds buf).min_x.getD 0 - 5) ((scanBounds buf).min_y.getD 0 - 5)
      ((scanBounds buf).max_x.getD 0 - (scanBounds buf).min_x.getD 0 + 10)
      ((scanBounds buf).max_y.getD 0 - (scanBounds buf).min_y.getD 0 + 10)))

/-- Translation of `process_mnist_data` in `main_final.py` (lines 188-211): same
scan, but the abort check is `if min_x is None`; on success the fixed 28x28
window is extracted and handed to `send_uart_data`.  Returns the bytes written
to the UART, or `none` when the save aborts with "No drawing found". -/
def process_mnist_data_final (buf : Buf) : Option (List Nat) :=
  if (scanBounds buf).min_x = none then none
  else some (send_uart_data_final (extract_mnist_region buf))

/-!
Touchscreen state and event routing (`main_final.py`).
-/

/-- Mutable state of the `TouchScreen` object relevant to the capture pipeline:
the packed framebuffer, the draw cursor (`last_x`/`last_y`, always assigned
together in the source) and the `freeze` latch. -/
structure TSState where
  buffer : Buf
  last_x : Option Int
  last_y : Option Int
  freeze : Bool

/-- Translation of `draw_point` in `main_final.py` (lines 119-127): inside the
screen-bounds guard the target bit plus its four axis neighbors are set (each
`set_pixel` re-checks bounds, so out-of-range brush sub-pixels are dropped);
the `fill_circle` call touches only the display, not the framebuffer. -/
def draw_point (buf : Buf) (x y : Int) : Buf :=
  if 0 ≤ x ∧ x < 320 ∧ 0 ≤ y ∧ y < 240 then
    set_pixel (set_pixel (set_pixel (set_pixel (set_pixel buf x y true)
      (x + 1) y true) (x - 1) y true) x (y + 1) true) x (y - 1) true
  else buf

/-- Framebuffer effect of `draw_line`: `draw_point` is called on every visited
lattice point of the Bresenham loop, in order. -/
def draw_line_buf (buf : Buf) (x0 y0 x y : Int) : Buf :=
  (draw_line_points x0 y0 x y).foldl (fun b p => draw_point b p.1 p.2) buf

/-- Translation of `process_drawing` (`main_final.py` lines 111-117): a fresh
stroke (`last_x is None`) draws a single point, otherwise a Bresenham line from
the cursor; afterwards `self.last_x, self.last_y = x, y`.  The source only
tests `last_x`; `last_y` is always set alongside it, extracted via `getD`. -/
def process_drawing (s : TSState) (x y : Int) : TSState :=
  match s.last_x with
  | none => ⟨draw_point s.buffer x y, some x, some y, s.freeze⟩
  | some lx => ⟨draw_line_buf s.buffer lx (s.last_y.getD 0) x y, some x, some y, s.freeze⟩

/-- Translation of `save_mnist` in `main_final.py` (lines 163-170): set the
freeze latch, run `process_mnist_data` (which returns the transmitted frame, or
`none` on the "No drawing found" abort), then `reset_canvas` (fresh
`bytearray(9600)`, cursor cleared, UI redrawn) and release the latch.
`reset_canvas` runs unconditionally on both the success and the abort path. -/
def save_mnist_final (s : TSState) : TSState × Option (List Nat) :=
  (⟨clear_buffer, none, none, false⟩, process_mnist_data_final s.buffer)

/-- Translation of `save_mnist` in `mainESPold.py` (lines 146-154), identical
control flow with the old extraction: freeze, process, unconditional
`reset_canvas` (lines 254-261), unfreeze. -/
def save_mnist_old (s : TSState) : TSState × Option (List Nat) :=
  (⟨clear_buffer, none, none, false⟩, process_mnist_data_old s.buffer)

/-- What a single touch interrupt did: discarded, hit the SEND button, or was
forwarded to the drawing pipeline. -/
inductive TouchOutcome where
  | ignored
  | clicked
  | drawn
  deriving DecidableEq

/-- Translation of `touch_handler` in `main_final.py` (lines 89-109):

    if self.freeze: return
    x, y = y, x                       # coordinate transpose
    for i, area in enumerate(self.Touch_items):
        if x in area.x_range and y in area.y_range:
            self.Touch_callbacks[i]()
            return
    if not self.freeze:
        if self.d_x < x and x < self.d_x + self.draw_area and \
           self.d_y < y and y < self.d_y + self.draw_area:
            self.process_drawing(x, y)

The only registered TouchArea is the SEND button at (248,176) size 64x64
(`initialize_ui`, lines 60-68), bound to `save_mnist`; `x in range(a, a+w)`
is `a ≤ x < a+w`.  The drawing window uses `d_x = 140`, `d_y = 100`,
`draw_area = 28` (lines 17-19) with strict inequalities on all four sides. -/
def touch_handler_final (s : TSState) (xRaw yRaw : Int) : TSState × TouchOutcome :=
  if s.freeze then (s, TouchOutcome.ignored)
  else
    let x := yRaw
    let y := xRaw
    if 248 ≤ x ∧ x < 248 + 64 ∧ 176 ≤ y ∧ y < 176 + 64 then
      ((save_mnist_final s).1, TouchOutcome.clicked)
    else if s.freeze = false ∧ 140 < x ∧ x < 140 + 28 ∧ 100 < y ∧ y < 100 + 28 then
      (process_drawing s x y, TouchOutcome.drawn)
    else (s, TouchOutcome.ignored)

/-- Idle unfrozen state with an empty canvas. -/
def ts_idle : TSState := ⟨clear_buffer, none, none, false⟩

/-- Frozen state with an empty canvas. -/
def ts_frozen : TSState := ⟨clear_buffer, none, none, true⟩

/-- The abort path of the old `process_mnist_data` fires on `buf1`: the scan
ends with `min_x = some 0`, which `if not min_x` treats as "no drawing". -/
theorem process_old_buf1_none : process_mnist_data_old buf1 = none := by
  unfold process_mnist_data_old
  rw [scanBounds_buf1]
  rfl

/-- C1 counterexample: `send_uart_data` of `mainESPold.py` hands a 98-byte
all-zero sample to `uart.write` unmodified — the peripheral receives 98 bytes,
not the 99 bytes the claim states. -/
theorem old_transmit_writes_98_bytes :
    (send_uart_data_old (List.replicate 98 0)).length = 98 ∧
    ¬(send_uart_data_old (List.replicate 98 0)).length = 99 := by
  constructor
  · simp [send_uart_data_old]
  · simp [send_uart_data_old]

/-- C1 (amended): in `main_final.py` (and the calibration utilities),
`send_uart_data` prepends exactly one literal `0x00` byte and writes the
resulting frame in a single `uart.write`, so for every 98-byte sample the
peripheral receives exactly 99 bytes whose first byte is `0x00`; the legacy
`mainESPold.py` variant writes the 98-byte payload with no padding byte. -/
theorem transmit_prepends_zero_byte (sample : List Nat) (h : sample.length = 98) :
    send_uart_data_final sample = 0 :: sample ∧
    (send_uart_data_final sample).length = 99 ∧
    (send_uart_data_final sample).head? = some 0 := by
  refine ⟨rfl, ?_, rfl⟩
  simp [send_uart_data_final, h]

/-- Witness for C1 on the concrete 98-byte all-zero calibration sample. -/
theorem transmit_prepends_zero_byte_witness :
    (send_uart_data_final (List.replicate 98 0)).length = 99 ∧
    (send_uart_data_final (List.replicate 98 0)).head? = some 0 :=
  ⟨(transmit_prepends_zero_byte (List.replicate 98 0) (by simp)).2.1,
   (transmit_prepends_zero_byte (List.replicate 98 0) (by simp)).2.2⟩

/-- C2: the claim states the BoundingBoxScaled extraction aborts with
NoDrawingFound iff zero pixels are set.  On `buf1` — one set pixel, at (0,0) —
the old `process_mnist_data` nevertheless aborts ("No drawing found"), because
the scan leaves `min_x = some 0` and `if not min_x` treats the integer 0 as
falsy.  The `is None` guard of `main_final.py` does not abort there. -/
theorem bbox_abort_on_origin_pixel :
    get_pixel buf1 0 0 = true ∧
    process_mnist_data_old buf1 = none ∧
    (process_mnist_data_final buf1).isSome = true := by
  refine ⟨(buf1_char 0 0).mpr ⟨rfl, rfl⟩, process_old_buf1_none, ?_⟩
  unfold process_mnist_data_final
  rw [scanBounds_buf1]
  rfl

/-- C3: the claim states a save ending in NoDrawingFound leaves the framebuffer
bit-for-bit unchanged.  In `mainESPold.py`, saving the canvas `buf1` (pixel
(0,0) set) ends in NoDrawingFound — nothing is transmitted and the latch ends
unfrozen — yet the unconditional `reset_canvas` zeroes the framebuffer: pixel
(0,0) read `True` before the save and reads `False` after it. -/
theorem save_nodrawing_clears_buffer :
    (save_mnist_old ⟨buf1, none, none, false⟩).2 = none ∧
    (save_mnist_old ⟨buf1, none, none, false⟩).1.freeze = false ∧
    get_pixel buf1 0 0 = true ∧
    get_pixel (save_mnist_old ⟨buf1, none, none, false⟩).1.buffer 0 0 = false := by
  simp only [save_mnist_old]
  exact ⟨process_old_buf1_none, trivial, (buf1_char 0 0).mpr ⟨rfl, rfl⟩, get_clear 0 0⟩

/-- C8: the claim states the scan computes the minimal bounding box.  On `buf2`
(set pixels (0,5) and (7,6)) the scan returns `min_x = some 7`, although a set
pixel exists in column 0: at (7,6) the update `min(x, min_x) if min_x else x`
sees the falsy running value 0 and resets `min_x` to 7. -/
theorem bbox_scan_misses_zero_min :
    scanBounds buf2 = ⟨some 7, some 7, some 5, some 6⟩ ∧
    get_pixel buf2 0 5 = true :=
  ⟨scanBounds_buf2, (buf2_char 0 5).mpr (Or.inl ⟨rfl, rfl⟩)⟩

/-- C6: while the freeze latch is set, `touch_handler` returns immediately:
the whole state — framebuffer bits and draw cursor — is unchanged and neither
a registered action nor the drawing pipeline is invoked. -/
theorem frozen_touch_no_effect (s : TSState) (xRaw yRaw : Int) (h : s.freeze = true) :
    touch_handler_final s xRaw yRaw = (s, TouchOutcome.ignored) ∧
    (touch_handler_final s xRaw yRaw).1.buffer = s.buffer ∧
    (touch_handler_final s xRaw yRaw).1.last_x = s.last_x ∧
    (touch_handler_final s xRaw yRaw).1.last_y = s.last_y := by
  have he : touch_handler_final s xRaw yRaw = (s, TouchOutcome.ignored) := by
    simp [touch_handler_final, h]
  exact ⟨he, by rw [he], by rw [he], by rw [he]⟩

/-- Witness for C6 at a concrete frozen state and touch event. -/
theorem frozen_touch_no_effect_witness :
    touch_handler_final ts_frozen 10 20 = (ts_frozen, TouchOutcome.ignored) :=
  (frozen_touch_no_effect ts_frozen 10 20 rfl).1

/-- C10: in the fixed-window variant a touch is forwarded to drawing only when
its transposed coordinates satisfy `d_x < x < d_x+28` and `d_y < y < d_y+28`
strictly; in particular any touch whose transposed coordinates lie on the
window origin row or column (`x = 140` or `y = 100`, the first coordinates
sampled by the FixedWindow extraction) causes no drawing, hits no button, and
leaves every framebuffer bit — in particular those of the origin row/column —
exactly as it was. -/
theorem draw_window_strict_bounds (s : TSState) (xRaw yRaw : Int) :
    ((touch_handler_final s xRaw yRaw).2 = TouchOutcome.drawn →
      140 < yRaw ∧ yRaw < 168 ∧ 100 < xRaw ∧ xRaw < 128) ∧
    ((yRaw = 140 ∨ xRaw = 100) →
      touch_handler_final s xRaw yRaw = (s, TouchOutcome.ignored)) := by
  constructor
  · intro hd
    simp only [touch_handler_final] at hd
    split_ifs at hd with h1 h2 h3
    obtain ⟨_, hb1, hb2, hb3, hb4⟩ := h3
    exact ⟨hb1, by omega, hb3, by omega⟩
  · intro hor
    by_cases h1 : s.freeze = true
    · simp [touch_handler_final, h1]
    · have hbtn : ¬(248 ≤ yRaw ∧ yRaw < 312 ∧ 176 ≤ xRaw ∧ xRaw < 240) := by
        rcases hor with rfl | rfl
        · intro hc; omega
        · intro hc; omega
      have hdraw : ¬(140 < yRaw ∧ yRaw < 168 ∧ 100 < xRaw ∧ xRaw < 128) := by
        intro hc
        rcases hor with rfl | rfl
        · omega
        · omega
      simp [touch_handler_final, h1, hbtn, hdraw]

/-- Witness for C10: the interior touch (110,150) is forwarded to drawing with
the strict bounds holding, and the boundary touch with transposed `y = 100` is
ignored with the state unchanged. -/
theorem draw_window_strict_bounds_witness :
    (140 < (150 : Int) ∧ (150 : Int) < 168 ∧ 100 < (110 : Int) ∧ (110 : Int) < 128) ∧
    touch_handler_final ts_idle 100 50 = (ts_idle, TouchOutcome.ignored) :=
  ⟨(draw_window_strict_bounds ts_idle 110 150).1 rfl,
   (draw_window_strict_bounds ts_idle 100 50).2 (Or.inr rfl)⟩
